import Mathlib

/-!
# Verification of the SegmentedObjectPool repository

Shallow embedding of the three pool variants found in the repository:

* `HPP`       — `src/SegmentedObjectPool.hpp`: intrusive free-list variant
                (`FreeNode* free_list_` threaded through vacant slots).
* `Flags`     — `src/unnamed/part_000`: per-segment `free_flags` array with a
                `free_hint` search cursor.
* `StackPool` — `src/unnamed/part_001`: pool-wide `std::stack<T*> free_stack_`
                plus spin-lock guarded `atomic_*` wrappers.

Modelling conventions:

* `std::size_t` values are modelled by `Nat`; the quantities involved (page
  counts, slot sizes, capacities, counters) never approach `2^64` in any
  realistic execution, so overflow is not the subject of any claim.
* A slot address is modelled as a pair `(segment index, slot index)`; the C++
  address `seg.data + i * slot_size_` is in bijection with that pair while the
  segment is alive.  The `Flags` variant performs raw address-range arithmetic
  in `deallocate`, so there each segment additionally carries its numeric base
  address and addresses are plain `Nat`.
* The statement `double target = next_pages_hint_ * growth_factor_;
  std::size_t pages = static_cast<std::size_t>(target);` is modelled by an
  arbitrary oracle value `fl : Nat` supplied to `add_segment`: theorems
  quantifying over `fl` therefore hold for every growth factor and every
  floating-point rounding behaviour.  For the default growth factor 1.0 the
  conversion is exact, i.e. `fl = next_pages_hint_`.
* The element object constructed by placement `new` is modelled by a payload
  `Nat` (the constructor arguments) and the `recycled` flag written by
  `mark_in_use`; `allocate` records `(address, payload, recycled := false)` in
  a history list `objs`.  Destructor invocations are counted in `dtors`.
-/

namespace SegPool

/-- `detail::gcd`: the source's Euclidean `while (b != 0) { t = a % b; a = b; b = t; }`
loop.  With loop state `(a, b) ↦ (b, a % b)` and exit value `a` this is exactly
`Nat.gcd b a`; the defining equations of `Nat.gcd` are the loop body, see
`cgcd_loop` below. -/
def cgcd (a b : Nat) : Nat := Nat.gcd b a

/-- The C++ loop equation for `detail::gcd`. -/
theorem cgcd_loop (a b : Nat) : cgcd a b = if b = 0 then a else cgcd b (a % b) := by
  unfold cgcd
  cases b with
  | zero => simp [Nat.gcd]
  | succ n => simp [Nat.gcd_succ]

/-- `detail::lcm`: `(a / gcd(a,b)) * b`. -/
def clcm (a b : Nat) : Nat := (a / cgcd a b) * b

theorem cgcd_comm (a b : Nat) : cgcd a b = Nat.gcd a b := Nat.gcd_comm b a

theorem clcm_eq_lcm (a b : Nat) : clcm a b = Nat.lcm a b := by
  unfold clcm Nat.lcm
  rw [cgcd_comm, Nat.mul_comm a b, Nat.mul_div_assoc b (Nat.gcd_dvd_left a b),
    Nat.mul_comm]

/-- `detail::round_up`: round `x` up to a multiple of `align` (`align = 0` returns `x`). -/
def round_up (x align : Nat) : Nat :=
  if align = 0 then x
  else if x % align ≠ 0 then x + (align - x % align) else x

/-- The slot size computed by the pool constructor:
`detail::round_up(std::max(sizeof(T), sizeof(void*)), alignof(T))`. -/
def slot_size (esz ptrsz al : Nat) : Nat := round_up (max esz ptrsz) al

theorem round_up_pos (x al : Nat) (hx : 0 < x) : 0 < round_up x al := by
  unfold round_up
  split
  · exact hx
  · split
    · exact Nat.lt_of_lt_of_le hx (Nat.le_add_right _ _)
    · exact hx

theorem slot_size_pos (esz ptrsz al : Nat) (h : 0 < esz) : 0 < slot_size esz ptrsz al :=
  round_up_pos _ _ (Nat.lt_of_lt_of_le h (Nat.le_max_left _ _))

/-- `compute_min_pages`: smallest page multiple whose byte size is a multiple of
the slot size, optionally scaled up to cover a user-supplied minimum page count. -/
def compute_min_pages (ps ss userMin : Nat) : Nat :=
  let l := clcm ps ss
  let minPages := l / ps
  if 0 < userMin then minPages * ((userMin + minPages - 1) / minPages) else minPages

theorem compute_min_pages_pos (ps ss userMin : Nat) (hps : 0 < ps) (hss : 0 < ss) :
    0 < compute_min_pages ps ss userMin := by
  unfold compute_min_pages
  have hlcm : 0 < Nat.lcm ps ss := Nat.pos_of_ne_zero (Nat.lcm_ne_zero hps.ne' hss.ne')
  have hmp : 0 < clcm ps ss / ps := by
    rw [clcm_eq_lcm]
    exact Nat.div_pos (Nat.le_of_dvd hlcm (Nat.dvd_lcm_left ps ss)) hps
  split
  · rename_i hu
    refine Nat.mul_pos hmp (Nat.div_pos ?_ hmp)
    omega
  · exact hmp

/-- The byte size of `compute_min_pages` many pages is an exact multiple of the
slot size (it is a multiple of `lcm(page_size, slot_size)`). -/
theorem ss_dvd_base_mul_ps (ps ss userMin : Nat) :
    ss ∣ compute_min_pages ps ss userMin * ps := by
  unfold compute_min_pages
  have hbase : (clcm ps ss / ps) * ps = Nat.lcm ps ss := by
    rw [clcm_eq_lcm]
    exact Nat.div_mul_cancel (Nat.dvd_lcm_left ps ss)
  have hd : ss ∣ (clcm ps ss / ps) * ps := by
    rw [hbase]; exact Nat.dvd_lcm_right ps ss
  split
  · rename_i hu
    rw [Nat.mul_assoc, Nat.mul_comm ((userMin + _ - 1) / _), ← Nat.mul_assoc]
    exact Dvd.dvd.mul_right hd _
  · exact hd

/-- One memory segment.  The C++ `Segment` stores the raw buffer pointer, the
slot capacity and `next_uninit` (the high-water mark).  `pages` records the
page count `seg_bytes / page_size` the segment was created with (determined by
`next_pages_hint_` at creation time); the raw pointer is dropped since slots are
addressed by `(segment index, slot index)`. -/
structure Seg where
  pages : Nat
  capacity : Nat
  next_uninit : Nat
deriving DecidableEq, Repr

/-- The creation-time data of a segment: its `(pages, capacity)` pair
(never mutated after `add_segment_`). -/
def pc (s : Seg) : Nat × Nat := (s.pages, s.capacity)

/-- Increment `next_uninit` of the last segment (`++segments_.back().next_uninit`). -/
def setLastNext : List Seg → List Seg
  | [] => []
  | [s] => [{ s with next_uninit := s.next_uninit + 1 }]
  | s :: rest => s :: setLastNext rest

theorem setLastNext_map_pc (l : List Seg) :
    (setLastNext l).map pc = l.map pc := by
  induction l with
  | nil => rfl
  | cons s rest ih =>
    cases rest with
    | nil => rfl
    | cons t ts => simpa [setLastNext] using ih

theorem setLastNext_length (l : List Seg) : (setLastNext l).length = l.length := by
  induction l with
  | nil => rfl
  | cons s rest ih =>
    cases rest with
    | nil => rfl
    | cons t ts => simpa [setLastNext] using ih

/-- Look up the most recent object record at an address (the history is
prepend-only, so the head-most entry is the object currently constructed there). -/
def lookupObj : List ((Nat × Nat) × Nat × Bool) → Nat × Nat → Option (Nat × Bool)
  | [], _ => none
  | (b, v, f) :: rest, a => if b = a then some (v, f) else lookupObj rest a

namespace HPP

/-- Pool state of `src/SegmentedObjectPool.hpp`.  `free_list` models the
intrusive `FreeNode* free_list_` as the LIFO list of vacant-slot addresses
(head = most recently pushed).  `objs` and `dtors` are the observation history
described in the module docstring. -/
structure Pool where
  ps : Nat                              -- page_size_
  ss : Nat                              -- slot_size_
  base : Nat                            -- pages_per_segment_base_
  hint : Nat                            -- next_pages_hint_
  segs : List SegPool.Seg               -- segments_ (vector order, back = last)
  free_list : List (Nat × Nat)          -- free_list_
  live_count : Nat                      -- live_count_
  objs : List ((Nat × Nat) × Nat × Bool)
  dtors : Nat
deriving DecidableEq, Repr

/-- The constructor `SegmentedObjectPool(min_pages_per_segment, growth)`:
`slot_size_` is supplied precomputed (`slot_size esz ptrsz al`), `growth` only
affects the `fl` oracle of `add_segment`. -/
def init (ps ss userMin : Nat) : Pool :=
  { ps := ps, ss := ss, base := SegPool.compute_min_pages ps ss userMin,
    hint := 0, segs := [], free_list := [], live_count := 0, objs := [], dtors := 0 }

/-- `if (pages < next_pages_hint_ + pages_per_segment_base_) pages = next_pages_hint_ + pages_per_segment_base_;`
applied to the float-cast value `fl`. -/
def grow_pages (hint base fl : Nat) : Nat :=
  if fl < hint + base then hint + base else fl

/-- `rem = pages % base; if (rem) pages += (base - rem);`. -/
def round_pages (pages base : Nat) : Nat :=
  if pages % base ≠ 0 then pages + (base - pages % base) else pages

/-- The `next_pages_hint_` update performed by `add_segment_`: keep the base on
the first segment, otherwise `max(cast(hint × growth), hint + base)` rounded up
to a multiple of the base.  `fl` is the oracle for
`static_cast<std::size_t>(next_pages_hint_ * growth_factor_)`. -/
def next_hint (p : Pool) (fl : Nat) : Nat :=
  if p.segs.isEmpty then p.base
  else round_pages (grow_pages p.hint p.base fl) p.base

/-- `add_segment_`: update the hint, reserve `next_pages_hint_ * page_size_`
bytes and append the segment with capacity `seg_bytes / slot_size_`. -/
def add_segment (p : Pool) (fl : Nat) : Pool :=
  let hint2 := next_hint p fl
  let seg_bytes := hint2 * p.ps
  let capacity := seg_bytes / p.ss
  { p with hint := hint2,
           segs := p.segs ++ [{ pages := hint2, capacity := capacity, next_uninit := 0 }] }

/-- `!segments_.empty() && segments_.back().next_uninit < segments_.back().capacity`. -/
def backHasRoom (p : Pool) : Bool :=
  match p.segs.getLast? with
  | some seg => decide (seg.next_uninit < seg.capacity)
  | none => false

/-- Claim the next never-initialized slot of the back segment: placement-`new`
at `seg.data + seg.next_uninit * slot_size_`, then `++seg.next_uninit`,
`mark_in_use`, `++live_count_`. -/
def claimBack (p : Pool) (v : Nat) : Pool × (Nat × Nat) :=
  match p.segs.getLast? with
  | some seg =>
      let a := (p.segs.length - 1, seg.next_uninit)
      ({ p with segs := SegPool.setLastNext p.segs,
                objs := (a, v, false) :: p.objs,
                live_count := p.live_count + 1 }, a)
  | none => (p, (0, 0))

/-- `allocate(args...)`: pop the free list if non-empty, else use the back
segment's uninitialized tail, else `add_segment_()` and claim its first slot. -/
def allocate (p : Pool) (v fl : Nat) : Pool × (Nat × Nat) :=
  match p.free_list with
  | node :: rest =>
      ({ p with free_list := rest,
                objs := (node, v, false) :: p.objs,
                live_count := p.live_count + 1 }, node)
  | [] =>
      if backHasRoom p then claimBack p v
      else claimBack (add_segment p fl) v

/-- `deallocate(T* p)`: `if (!p) return;` then `p->~T()`, push the slot on the
free list, `--live_count_`. -/
def deallocate (p : Pool) (q : Option (Nat × Nat)) : Pool :=
  match q with
  | none => p
  | some a =>
      { p with free_list := a :: p.free_list,
               live_count := p.live_count - 1,
               dtors := p.dtors + 1 }

/-- `clear()`: release all segments, null the free list, zero the live count,
reset the growth target. -/
def clear (p : Pool) : Pool :=
  { p with segs := [], free_list := [], live_count := 0, hint := p.base }

/-- `live()` observer. -/
def live (p : Pool) : Nat := p.live_count

/-- Has the slot `a` ever been constructed into, as of state `p`
(is it below its segment's high-water mark)? -/
def slotEverUsed (p : Pool) (a : Nat × Nat) : Bool :=
  match p.segs[a.1]? with
  | some s => decide (a.2 < s.next_uninit)
  | none => false

/-- `next_uninit` of the back segment (`0` when no segment exists). -/
def backNext (p : Pool) : Nat :=
  match p.segs.getLast? with
  | some s => s.next_uninit
  | none => 0

theorem backHasRoom_iff (p : Pool) :
    backHasRoom p = true ↔
      ∃ seg, p.segs.getLast? = some seg ∧ seg.next_uninit < seg.capacity := by
  unfold backHasRoom
  cases h : p.segs.getLast? with
  | none => simp
  | some seg => simp

end HPP

/-- A single-threaded pool operation: the public mutating API of the pool.
`alloc v fl` carries the constructor-argument payload `v` and the float oracle
`fl`; `dealloc a` passes the (non-null) reference `a`. -/
inductive Op where
  | alloc (v fl : Nat)
  | dealloc (a : Nat × Nat)
  | clear
deriving DecidableEq, Repr

/-- Remove the first occurrence of `a` (ghost bookkeeping of outstanding
allocations, used to express the caller contract on `deallocate`). -/
def removeFirst : List (Nat × Nat) → (Nat × Nat) → List (Nat × Nat)
  | [], _ => []
  | x :: xs, a => if x = a then xs else x :: removeFirst xs a

theorem removeFirst_length_mem (l : List (Nat × Nat)) (a : Nat × Nat) (h : a ∈ l) :
    (removeFirst l a).length = l.length - 1 := by
  induction l with
  | nil => cases h
  | cons x xs ih =>
    by_cases hx : x = a
    · simp [removeFirst, hx]
    · have hmem : a ∈ xs := by
        cases h with
        | head => exact absurd rfl hx
        | tail _ h => exact h
      have hpos : 0 < xs.length := List.length_pos.mpr (List.ne_nil_of_mem hmem)
      have hstep : removeFirst (x :: xs) a = x :: removeFirst xs a := by
        simp [removeFirst, hx]
      rw [hstep, List.length_cons, ih hmem, List.length_cons]
      omega

namespace HPP

/-- One step of the operational semantics, paired with the ghost list of
outstanding (allocated, not yet deallocated) addresses. -/
def stepG (s : Pool × List (Nat × Nat)) : Op → Pool × List (Nat × Nat)
  | .alloc v fl =>
      let r := allocate s.1 v fl
      (r.1, r.2 :: s.2)
  | .dealloc a => (deallocate s.1 (some a), removeFirst s.2 a)
  | .clear => (clear s.1, [])

/-- Run a sequence of operations. -/
def execG (s : Pool × List (Nat × Nat)) (ops : List Op) : Pool × List (Nat × Nat) :=
  ops.foldl stepG s

/-- One-step caller contract: a `dealloc` must pass a currently-outstanding
(live, non-null) reference; `alloc` and `clear` are always admissible. -/
def wfOp (s : Pool × List (Nat × Nat)) : Op → Bool
  | .alloc _ _ => true
  | .dealloc a => decide (a ∈ s.2)
  | .clear => true

/-- Caller contract of the unsynchronized single-threaded API: every
`deallocate` call passes a currently-outstanding (live, non-null) reference. -/
def wfG : Pool × List (Nat × Nat) → List Op → Bool
  | _, [] => true
  | s, op :: t => wfOp s op && wfG (stepG s op) t

end HPP

/-- Number of `alloc` operations since the last `clear`, starting from
accumulator `n` (reset to `0` by `clear`). -/
def allocsSLC : List Op → Nat → Nat
  | [], n => n
  | .alloc _ _ :: t, n => allocsSLC t (n + 1)
  | .dealloc _ :: t, n => allocsSLC t n
  | .clear :: t, _ => allocsSLC t 0

/-- Number of `dealloc` operations since the last `clear`. -/
def deallocsSLC : List Op → Nat → Nat
  | [], n => n
  | .alloc _ _ :: t, n => deallocsSLC t n
  | .dealloc _ :: t, n => deallocsSLC t (n + 1)
  | .clear :: t, _ => deallocsSLC t 0

namespace Flags

/-- Segment of the free-flags variant (`src/unnamed/part_000`): raw buffer base
address, capacity, high-water mark, the `free_flags` byte array
(`true` = vacant) and the `free_hint` search cursor. -/
structure SegB where
  baseAddr : Nat
  capacity : Nat
  next_uninit : Nat
  free_flags : List Bool
  free_hint : Nat
deriving DecidableEq, Repr

/-- Pool state of the free-flags variant (only the fields `deallocate` touches
are exercised by the claims; the growth fields are carried for completeness). -/
structure PoolB where
  ps : Nat
  ss : Nat
  base : Nat
  hint : Nat
  segs : List SegB
  live_count : Nat
  dtors : Nat
deriving DecidableEq, Repr

/-- The `for (auto& seg : segments_)` scan of `deallocate`: on the first segment
whose address range `[base, base + capacity*slot_size)` contains `addr`, destroy
the object, set `free_flags[index]`, lower `free_hint`, and stop.  Returns the
rebuilt segment list and whether a segment was found. -/
def deallocScan (ss addr : Nat) : List SegB → List SegB × Bool
  | [] => ([], false)
  | seg :: rest =>
      if seg.baseAddr ≤ addr ∧ addr < seg.baseAddr + seg.capacity * ss then
        let index := (addr - seg.baseAddr) / ss
        ({ seg with free_flags := seg.free_flags.set index true,
                    free_hint := if index < seg.free_hint then index else seg.free_hint }
           :: rest, true)
      else
        let r := deallocScan ss addr rest
        (seg :: r.1, r.2)

/-- `deallocate(T* p)` of the free-flags variant: null is a no-op; otherwise
scan the segments for the owner; if found, destruct (counted in `dtors`), mark
the slot free and `--live_count_`; if no segment contains the address the loop
falls through and returns. -/
def deallocate (p : PoolB) (q : Option Nat) : PoolB :=
  match q with
  | none => p
  | some addr =>
      let r := deallocScan p.ss addr p.segs
      if r.2 then
        { p with segs := r.1, live_count := p.live_count - 1, dtors := p.dtors + 1 }
      else
        { p with segs := r.1 }

end Flags

namespace StackPool

/-- Pool state of `src/unnamed/part_001`: the free-slot tracker is the
pool-wide `std::stack<T*> free_stack_` (head = top). -/
structure Pool where
  ps : Nat
  ss : Nat
  base : Nat
  hint : Nat
  segs : List SegPool.Seg
  free_stack : List (Nat × Nat)
  live_count : Nat
  objs : List ((Nat × Nat) × Nat × Bool)
  dtors : Nat
deriving DecidableEq, Repr

/-- Constructor of the stack variant. -/
def init (ps ss userMin : Nat) : Pool :=
  { ps := ps, ss := ss, base := SegPool.compute_min_pages ps ss userMin,
    hint := 0, segs := [], free_stack := [], live_count := 0, objs := [], dtors := 0 }

/-- `add_segment_` (textually identical to the hpp variant). -/
def add_segment (p : Pool) (fl : Nat) : Pool :=
  let hint2 :=
    if p.segs.isEmpty then p.base
    else
      let pages1 := if fl < p.hint + p.base then p.hint + p.base else fl
      let rem := pages1 % p.base
      if rem ≠ 0 then pages1 + (p.base - rem) else pages1
  let seg_bytes := hint2 * p.ps
  let capacity := seg_bytes / p.ss
  { p with hint := hint2,
           segs := p.segs ++ [{ pages := hint2, capacity := capacity, next_uninit := 0 }] }

/-- Back-segment room test of the stack variant. -/
def backHasRoom (p : Pool) : Bool :=
  match p.segs.getLast? with
  | some seg => decide (seg.next_uninit < seg.capacity)
  | none => false

/-- Claim the next uninitialized slot of the back segment. -/
def claimBack (p : Pool) (v : Nat) : Pool × (Nat × Nat) :=
  match p.segs.getLast? with
  | some seg =>
      let a := (p.segs.length - 1, seg.next_uninit)
      ({ p with segs := SegPool.setLastNext p.segs,
                objs := (a, v, false) :: p.objs,
                live_count := p.live_count + 1 }, a)
  | none => (p, (0, 0))

/-- `allocate(args...)`: `if (!free_stack_.empty())` pop and reconstruct, else
uninitialized tail of the back segment, else grow. -/
def allocate (p : Pool) (v fl : Nat) : Pool × (Nat × Nat) :=
  match p.free_stack with
  | top :: rest =>
      ({ p with free_stack := rest,
                objs := (top, v, false) :: p.objs,
                live_count := p.live_count + 1 }, top)
  | [] =>
      if backHasRoom p then claimBack p v
      else claimBack (add_segment p fl) v

/-- `deallocate(T* p)`: null no-op, else destruct, `free_stack_.push(p)`,
`--live_count_`. -/
def deallocate (p : Pool) (q : Option (Nat × Nat)) : Pool :=
  match q with
  | none => p
  | some a =>
      { p with free_stack := a :: p.free_stack,
               live_count := p.live_count - 1,
               dtors := p.dtors + 1 }

/-- `atomic_deallocate`: `if (!p) return;` then take the spin lock and call
`deallocate`.  Single-threaded semantics: identical to `deallocate` after the
null check. -/
def atomic_deallocate (p : Pool) (q : Option (Nat × Nat)) : Pool :=
  match q with
  | none => p
  | some a => deallocate p (some a)

/-- `clear()` of the stack variant: releases the segments, zeroes the live
count and resets the growth target — but, unlike the hpp variant, does NOT
reset `free_stack_`, which keeps holding pointers into the released buffers. -/
def clear (p : Pool) : Pool :=
  { p with segs := [], live_count := 0, hint := p.base }

/-- Sum of the segments' high-water marks. -/
def sumHWM (p : Pool) : Nat := (p.segs.map SegPool.Seg.next_uninit).sum

end StackPool

namespace HPP

/-- `add_segment_` under the default growth factor 1.0: the conversion
`static_cast<std::size_t>(double(next_pages_hint_) * 1.0)` is exact, so the
float oracle equals `next_pages_hint_`. -/
def add_segment_g1 (p : Pool) : Pool := add_segment p p.hint

/-- `n` successive growths of one pool under growth factor 1.0. -/
def grows (p : Pool) : Nat → Pool
  | 0 => p
  | n + 1 => add_segment_g1 (grows p n)

end HPP

namespace HPP

theorem grow_pages_ge (hint base fl : Nat) : hint + base ≤ grow_pages hint base fl := by
  unfold grow_pages
  split
  · exact Nat.le_refl _
  · omega

theorem grow_pages_self (hint base : Nat) (hb : 0 < base) :
    grow_pages hint base hint = hint + base := by
  unfold grow_pages
  rw [if_pos (by omega)]

theorem round_pages_ge (x b : Nat) : x ≤ round_pages x b := by
  unfold round_pages
  split
  · exact Nat.le_add_right _ _
  · exact Nat.le_refl _

theorem round_pages_dvd (x b : Nat) (hb : 0 < b) : b ∣ round_pages x b := by
  unfold round_pages
  split
  · rename_i hr
    have hq := (Nat.div_add_mod x b).symm
    have hrlt : x % b < b := Nat.mod_lt _ hb
    refine ⟨x / b + 1, ?_⟩
    have hmul : b * (x / b + 1) = b * (x / b) + b := by ring
    omega
  · rename_i hr
    push_neg at hr
    exact Nat.dvd_of_mod_eq_zero hr

theorem round_pages_of_dvd (x b : Nat) (hd : b ∣ x) : round_pages x b = x := by
  obtain ⟨k, hk⟩ := hd
  unfold round_pages
  rw [if_neg (by simp [hk, Nat.mul_mod_right])]

theorem next_hint_empty (p : Pool) (fl : Nat) (h : p.segs = []) :
    next_hint p fl = p.base := by
  unfold next_hint
  rw [if_pos (by simp [h])]

theorem next_hint_ge (p : Pool) (fl : Nat) (h : p.segs ≠ []) :
    p.hint + p.base ≤ next_hint p fl := by
  unfold next_hint
  rw [if_neg (by simp [h])]
  exact Nat.le_trans (grow_pages_ge _ _ _) (round_pages_ge _ _)

theorem next_hint_dvd (p : Pool) (fl : Nat) (hb : 0 < p.base) :
    p.base ∣ next_hint p fl := by
  unfold next_hint
  split
  · exact dvd_refl p.base
  · exact round_pages_dvd _ _ hb

theorem next_hint_g1 (p : Pool) (h : p.segs ≠ []) (hb : 0 < p.base)
    (hd : p.base ∣ p.hint) : next_hint p p.hint = p.hint + p.base := by
  unfold next_hint
  rw [if_neg (by simp [h]), grow_pages_self _ _ hb,
    round_pages_of_dvd _ _ (by exact Dvd.dvd.add hd (dvd_refl p.base))]

theorem add_segment_segs (p : Pool) (fl : Nat) :
    (add_segment p fl).segs = p.segs ++
      [{ pages := next_hint p fl, capacity := next_hint p fl * p.ps / p.ss,
         next_uninit := 0 }] := rfl

theorem add_segment_hint (p : Pool) (fl : Nat) :
    (add_segment p fl).hint = next_hint p fl := rfl

theorem add_segment_fields (p : Pool) (fl : Nat) :
    (add_segment p fl).base = p.base ∧ (add_segment p fl).ps = p.ps ∧
      (add_segment p fl).ss = p.ss := ⟨rfl, rfl, rfl⟩

end HPP

/-- Helper: under growth factor 1.0, the `k`-th appended segment (0-based) has
`(k+1) * base` pages, and `next_pages_hint_` tracks the last size. -/
theorem grows_spec (ps ss umin : Nat) (hps : 0 < ps) (hss : 0 < ss) (n : Nat) :
    (HPP.grows (HPP.init ps ss umin) n).segs.map SegPool.Seg.pages
        = (List.range n).map (fun k => (k + 1) * compute_min_pages ps ss umin) ∧
      (HPP.grows (HPP.init ps ss umin) n).hint = n * compute_min_pages ps ss umin ∧
      (HPP.grows (HPP.init ps ss umin) n).base = compute_min_pages ps ss umin := by
  have hbpos : 0 < compute_min_pages ps ss umin := compute_min_pages_pos ps ss umin hps hss
  induction n with
  | zero => exact ⟨rfl, by simp [HPP.grows, HPP.init], rfl⟩
  | succ n ih =>
    obtain ⟨hmap, hhint, hbase⟩ := ih
    set p := HPP.grows (HPP.init ps ss umin) n with hp
    have hlen : p.segs.length = n := by simpa using congrArg List.length hmap
    have hg : HPP.grows (HPP.init ps ss umin) (n + 1) = HPP.add_segment p p.hint := rfl
    have hnh : HPP.next_hint p p.hint = (n + 1) * compute_min_pages ps ss umin := by
      cases n with
      | zero =>
        have hnil : p.segs = [] := List.length_eq_zero.mp hlen
        rw [HPP.next_hint_empty p p.hint hnil, hbase]
        ring
      | succ m =>
        have hne : p.segs ≠ [] := by
          intro h0
          rw [h0] at hlen
          simp at hlen
        have hd : p.base ∣ p.hint :=
          ⟨m + 1, by rw [hhint, hbase, Nat.mul_comm]⟩
        rw [HPP.next_hint_g1 p hne (by rw [hbase]; exact hbpos) hd, hhint, hbase]
        ring
    refine ⟨?_, ?_, ?_⟩
    · rw [hg, HPP.add_segment_segs, List.map_append, hmap, List.range_succ,
        List.map_append]
      simp [hnh]
    · rw [hg, HPP.add_segment_hint, hnh]
    · rw [hg]
      exact hbase

/-- C1: the pool of `src/unnamed/part_001` violates the tracker safety
contract.  Concrete failing run: `allocate`, `deallocate` the returned slot,
`clear()`, `allocate` again.  `clear` releases every segment but leaves
`free_stack_` untouched, so the final `allocate` pops and hands out the stale
address of slot `(0,0)` while the pool owns zero segments: the returned slot is
below no segment's high-water mark and is not a currently-vacant slot of any
live segment (in C++ it is a dangling pointer into freed memory). -/
theorem claim1_stale_slot_after_clear :
    (let p0 := StackPool.init 4096 24 0
     let r1 := StackPool.allocate p0 7 3
     let p2 := StackPool.deallocate r1.1 (some r1.2)
     let p3 := StackPool.clear p2
     let r2 := StackPool.allocate p3 8 3
     r2.2 = r1.2 ∧ r2.1.segs = [] ∧ r2.1.live_count = 1) := by
  decide

/-- C2: in the same `src/unnamed/part_001` pool, after `allocate`,
`deallocate`, `clear()` the invariant `live count = Σ high-water marks −
currently-vacant slots` fails: the live count is 0 and every high-water mark is
gone with the segments, yet the tracker still records one vacant slot
(stated subtraction-free: `live + vacant ≠ Σ hwm`, here `0 + 1 ≠ 0`). -/
theorem claim2_invariant_broken_after_clear :
    (let p0 := StackPool.init 4096 24 0
     let r1 := StackPool.allocate p0 7 3
     let p2 := StackPool.deallocate r1.1 (some r1.2)
     let p3 := StackPool.clear p2
     p3.live_count + p3.free_stack.length ≠ StackPool.sumHWM p3) := by
  decide

/-- C4 counterexample: with the default growth factor 1.0, the second segment
appended by `add_segment_` has 6 pages while the first has 3 (page size 4096,
slot size 24, base = lcm(4096,24)/4096 = 3 pages): segment sizes are NOT
constant, refuting the claim at this concrete input. -/
theorem claim4_counterexample :
    (HPP.grows (HPP.init 4096 24 0) 2).segs.map SegPool.Seg.pages = [3, 6] ∧
      (6 : Nat) ≠ 3 := by
  decide

/-- C4 amended: when the growth factor is 1.0 (the default, or any supplied
value ≤ 1.0 after clamping), the `k`-th segment appended across successive
growths (1-based) has `k × base` pages — an arithmetic progression stepping by
the base page count, because `add_segment_` takes
`max(hint × 1.0, hint + base) = hint + base`; only the first segment has the
base size, so segments are not constant-size. -/
theorem claim4_amended (ps ss umin : Nat) (hps : 0 < ps) (hss : 0 < ss) (n : Nat) :
    (HPP.grows (HPP.init ps ss umin) n).segs.map SegPool.Seg.pages
      = (List.range n).map (fun k => (k + 1) * compute_min_pages ps ss umin) :=
  (grows_spec ps ss umin hps hss n).1

/-- C4 amended, witnessed at page size 4096, slot size 24, two growths. -/
theorem claim4_amended_witness :
    (HPP.grows (HPP.init 4096 24 0) 2).segs.map SegPool.Seg.pages
      = (List.range 2).map (fun k => (k + 1) * compute_min_pages 4096 24 0) :=
  claim4_amended 4096 24 0 (by decide) (by decide) 2

/-- C9: deallocating a null reference is a safe no-op in every variant: the hpp
`deallocate`, the free-flags `deallocate`, and the stack variant's `deallocate`
and `atomic_deallocate` all return with the whole pool state — live count,
segment list, free-slot tracker and destructor count — unchanged. -/
theorem claim9_null_deallocate_noop (pa : HPP.Pool) (pb : Flags.PoolB)
    (pc : StackPool.Pool) :
    HPP.deallocate pa none = pa ∧ Flags.deallocate pb none = pb ∧
      StackPool.deallocate pc none = pc ∧ StackPool.atomic_deallocate pc none = pc :=
  ⟨rfl, rfl, rfl, rfl⟩

namespace Flags

/-- If no segment's address range contains `addr`, the `deallocate` scan
traverses the whole list rebuilding it unchanged and reports no hit. -/
theorem deallocScan_miss (ss addr : Nat) (l : List SegB)
    (h : ∀ seg ∈ l, ¬ (seg.baseAddr ≤ addr ∧ addr < seg.baseAddr + seg.capacity * ss)) :
    deallocScan ss addr l = (l, false) := by
  induction l with
  | nil => rfl
  | cons s rest ih =>
    have hs := h s (List.mem_cons_self s rest)
    have hrest := ih (fun seg hm => h seg (List.mem_cons_of_mem _ hm))
    unfold deallocScan
    rw [if_neg hs, hrest]

end Flags

namespace HPP

theorem add_segment_live (p : Pool) (fl : Nat) :
    (add_segment p fl).live_count = p.live_count := rfl

/-- Every branch of `allocate` executes `++live_count_`. -/
theorem allocate_live (p : Pool) (v fl : Nat) :
    (allocate p v fl).1.live_count = p.live_count + 1 := by
  unfold allocate
  cases hfl : p.free_list with
  | cons a rest => rfl
  | nil =>
    cases hroom : backHasRoom p with
    | true =>
      obtain ⟨seg, hlast, _⟩ := (backHasRoom_iff p).mp hroom
      simp [hroom, claimBack, hlast]
    | false =>
      simp [hroom, claimBack, add_segment_segs, List.getLast?_concat, add_segment_live]

end HPP

/-- C3: every `allocate` call of the hpp pool resolves in order — (1) if the
free list tracks a vacant slot it is popped and reused (segments untouched),
(2) otherwise if the back segment still has a never-initialized slot, that slot
(index = its current high-water mark) is claimed, (3) otherwise one new segment
is appended and its first slot `(old segment count, 0)` is claimed; in all
cases the element is constructed in place at the returned address with the
given arguments, its recycled flag is set to false by `mark_in_use`, and the
live count is incremented by one. -/
theorem claim3_allocate_resolution (p : HPP.Pool) (v fl : Nat) :
    (HPP.allocate p v fl).1.live_count = p.live_count + 1 ∧
      lookupObj (HPP.allocate p v fl).1.objs (HPP.allocate p v fl).2
        = some (v, false) ∧
      (match p.free_list with
       | a :: rest =>
          (HPP.allocate p v fl).2 = a ∧ (HPP.allocate p v fl).1.free_list = rest ∧
            (HPP.allocate p v fl).1.segs = p.segs
       | [] =>
          match HPP.backHasRoom p with
          | true =>
              (HPP.allocate p v fl).1.segs.length = p.segs.length ∧
                (HPP.allocate p v fl).2 = (p.segs.length - 1, HPP.backNext p)
          | false =>
              (HPP.allocate p v fl).1.segs.length = p.segs.length + 1 ∧
                (HPP.allocate p v fl).2 = (p.segs.length, 0)) := by
  cases hfl : p.free_list with
  | cons a rest =>
    simp [HPP.allocate, hfl, lookupObj]
  | nil =>
    cases hroom : HPP.backHasRoom p with
    | true =>
      obtain ⟨seg, hlast, _⟩ := (HPP.backHasRoom_iff p).mp hroom
      have halloc : HPP.allocate p v fl = HPP.claimBack p v := by
        simp [HPP.allocate, hfl, hroom]
      rw [halloc]
      unfold HPP.claimBack
      rw [hlast]
      refine ⟨rfl, by simp [lookupObj], ?_⟩
      simp [hfl, hroom, setLastNext_length, HPP.backNext, hlast]
    | false =>
      have halloc : HPP.allocate p v fl = HPP.claimBack (HPP.add_segment p fl) v := by
        simp [HPP.allocate, hfl, hroom]
      rw [halloc]
      have hsegs : (HPP.add_segment p fl).segs
          = p.segs ++ [{ pages := HPP.next_hint p fl,
                         capacity := HPP.next_hint p fl * p.ps / p.ss,
                         next_uninit := 0 }] := rfl
      unfold HPP.claimBack
      rw [hsegs, List.getLast?_concat]
      refine ⟨rfl, by simp [lookupObj], ?_⟩
      simp [hfl, hroom, setLastNext_length]

/-- C8, hpp pool: (i) if the slot at address `A` is deallocated while the free
list holds no other vacant slot, the next `allocate` returns exactly `A`
(LIFO reuse); (ii) if no vacant slot is tracked at all, the address returned by
`allocate` is a slot never constructed into before — it is not below the
high-water mark of any segment of the pre-call state. -/
theorem claim8_reuse_correctness (p : HPP.Pool) (A : Nat × Nat)
    (v1 fl1 v2 fl2 : Nat) (h : p.free_list = []) :
    (HPP.allocate (HPP.deallocate p (some A)) v1 fl1).2 = A ∧
      HPP.slotEverUsed p (HPP.allocate p v2 fl2).2 = false := by
  constructor
  · simp [HPP.deallocate, HPP.allocate, h]
  · cases hroom : HPP.backHasRoom p with
    | true =>
      obtain ⟨seg, hlast, _⟩ := (HPP.backHasRoom_iff p).mp hroom
      have halloc : HPP.allocate p v2 fl2 = HPP.claimBack p v2 := by
        simp [HPP.allocate, h, hroom]
      have haddr : (HPP.allocate p v2 fl2).2 = (p.segs.length - 1, seg.next_uninit) := by
        rw [halloc]
        unfold HPP.claimBack
        rw [hlast]
      rw [haddr]
      unfold HPP.slotEverUsed
      have hget : p.segs[p.segs.length - 1]? = some seg := by
        rw [← List.getLast?_eq_getElem? p.segs, hlast]
      simp [hget]
    | false =>
      have halloc : HPP.allocate p v2 fl2 = HPP.claimBack (HPP.add_segment p fl2) v2 := by
        simp [HPP.allocate, h, hroom]
      have hsegs : (HPP.add_segment p fl2).segs
          = p.segs ++ [{ pages := HPP.next_hint p fl2,
                         capacity := HPP.next_hint p fl2 * p.ps / p.ss,
                         next_uninit := 0 }] := rfl
      have haddr : (HPP.allocate p v2 fl2).2 = (p.segs.length, 0) := by
        rw [halloc]
        unfold HPP.claimBack
        rw [hsegs, List.getLast?_concat]
        simp [hsegs]
      rw [haddr]
      unfold HPP.slotEverUsed
      have hget : p.segs[p.segs.length]? = none :=
        List.getElem?_eq_none (Nat.le_refl _)
      simp [hget]

/-- C8, witnessed at a pool with one 512-slot segment, two live objects and an
empty free list: deallocating `(0, 1)` makes the next allocation return
`(0, 1)`, and allocating with nothing vacant claims the fresh slot `(0, 2)`. -/
theorem claim8_witness :
    (HPP.allocate (HPP.deallocate
        { ps := 4096, ss := 24, base := 3, hint := 3,
          segs := [{ pages := 3, capacity := 512, next_uninit := 2 }],
          free_list := [], live_count := 2, objs := [], dtors := 0 }
        (some (0, 1))) 5 3).2 = (0, 1) ∧
      HPP.slotEverUsed
        { ps := 4096, ss := 24, base := 3, hint := 3,
          segs := [{ pages := 3, capacity := 512, next_uninit := 2 }],
          free_list := [], live_count := 2, objs := [], dtors := 0 }
        ((HPP.allocate
          { ps := 4096, ss := 24, base := 3, hint := 3,
            segs := [{ pages := 3, capacity := 512, next_uninit := 2 }],
            free_list := [], live_count := 2, objs := [], dtors := 0 } 6 3).2)
        = false :=
  claim8_reuse_correctness _ (0, 1) 5 3 6 3 rfl

/-- C10: in the free-flags variant, `deallocate` with a non-null pointer that
lies in no segment's address range scans all segments without a hit and
returns with the pool state identical: no destructor call, no free flag set,
no hint moved, no live-count decrement. -/
theorem claim10_foreign_pointer_noop (p : Flags.PoolB) (addr : Nat)
    (hnz : addr ≠ 0)
    (h : ∀ seg ∈ p.segs,
      ¬ (seg.baseAddr ≤ addr ∧ addr < seg.baseAddr + seg.capacity * p.ss)) :
    Flags.deallocate p (some addr) = p := by
  show (let r := Flags.deallocScan p.ss addr p.segs
        if r.2 then
          { p with segs := r.1, live_count := p.live_count - 1, dtors := p.dtors + 1 }
        else { p with segs := r.1 }) = p
  rw [Flags.deallocScan_miss p.ss addr p.segs h]
  rfl

/-- C10, witnessed at a one-segment pool covering addresses `[1000, 1096)` and
the foreign address `50000`. -/
theorem claim10_witness :
    Flags.deallocate
      { ps := 4096, ss := 24, base := 3, hint := 3,
        segs := [{ baseAddr := 1000, capacity := 4, next_uninit := 2,
                   free_flags := [false, true, false, false], free_hint := 1 }],
        live_count := 1, dtors := 0 }
      (some 50000)
      = { ps := 4096, ss := 24, base := 3, hint := 3,
          segs := [{ baseAddr := 1000, capacity := 4, next_uninit := 2,
                     free_flags := [false, true, false, false], free_hint := 1 }],
          live_count := 1, dtors := 0 } :=
  claim10_foreign_pointer_noop _ 50000 (by decide) (by decide)

namespace HPP

/-- Along any well-formed run, `live_count_` equals the number of outstanding
allocations (ghost list length). -/
theorem execG_live_eq_out (t : List Op) : ∀ s : Pool × List (Nat × Nat),
    s.1.live_count = s.2.length → wfG s t = true →
    (execG s t).1.live_count = (execG s t).2.length := by
  induction t with
  | nil =>
    intro s h _
    exact h
  | cons op t ih =>
    intro s hinv hwf
    rw [show wfG s (op :: t) = (wfOp s op && wfG (stepG s op) t) from rfl,
      Bool.and_eq_true] at hwf
    obtain ⟨hguard, hwf2⟩ := hwf
    have hstep : execG s (op :: t) = execG (stepG s op) t := rfl
    rw [hstep]
    refine ih _ ?_ hwf2
    cases op with
    | alloc v fl =>
      show (allocate s.1 v fl).1.live_count = ((allocate s.1 v fl).2 :: s.2).length
      rw [allocate_live, List.length_cons, hinv]
    | dealloc a =>
      have hmem : a ∈ s.2 := of_decide_eq_true hguard
      show (deallocate s.1 (some a)).live_count = (removeFirst s.2 a).length
      have hpos : 0 < s.2.length := List.length_pos.mpr (List.ne_nil_of_mem hmem)
      show s.1.live_count - 1 = (removeFirst s.2 a).length
      rw [removeFirst_length_mem s.2 a hmem, hinv]
    | clear => rfl

/-- Along any well-formed run, the outstanding count plus the deallocations
since the last `clear` equals the allocations since the last `clear`
(accumulator form). -/
theorem execG_out_counts (t : List Op) : ∀ (s : Pool × List (Nat × Nat)) (d : Nat),
    wfG s t = true →
    (execG s t).2.length + deallocsSLC t d = allocsSLC t (s.2.length + d) := by
  induction t with
  | nil =>
    intro s d _
    rfl
  | cons op t ih =>
    intro s d hwf
    rw [show wfG s (op :: t) = (wfOp s op && wfG (stepG s op) t) from rfl,
      Bool.and_eq_true] at hwf
    obtain ⟨hguard, hwf2⟩ := hwf
    have hstep : execG s (op :: t) = execG (stepG s op) t := rfl
    rw [hstep]
    cases op with
    | alloc v fl =>
      have hih := ih (stepG s (Op.alloc v fl)) d hwf2
      show (execG (stepG s (Op.alloc v fl)) t).2.length + deallocsSLC t d
          = allocsSLC t (s.2.length + d + 1)
      rw [hih]
      congr 1
      show ((allocate s.1 v fl).2 :: s.2).length + d = s.2.length + d + 1
      rw [List.length_cons]
      omega
    | dealloc a =>
      have hmem : a ∈ s.2 := of_decide_eq_true hguard
      have hpos : 0 < s.2.length := List.length_pos.mpr (List.ne_nil_of_mem hmem)
      have hih := ih (stepG s (Op.dealloc a)) (d + 1) hwf2
      show (execG (stepG s (Op.dealloc a)) t).2.length + deallocsSLC t (d + 1)
          = allocsSLC t (s.2.length + d)
      rw [hih]
      congr 1
      show (removeFirst s.2 a).length + (d + 1) = s.2.length + d
      rw [removeFirst_length_mem s.2 a hmem]
      omega
    | clear =>
      have hih := ih (stepG s Op.clear) 0 hwf2
      show (execG (stepG s Op.clear) t).2.length + deallocsSLC t 0 = allocsSLC t 0
      rw [hih]
      rfl

end HPP

/-- C7: in unsynchronized single-threaded use respecting the caller contract
(every `deallocate` passes a currently-live reference), after any operation
sequence `live()` equals the number of `allocate` calls minus the number of
`deallocate` calls since the last `clear` (or since construction), and that
difference never underflows. -/
theorem claim7_conservation (ps ss umin : Nat) (t : List Op)
    (hwf : HPP.wfG (HPP.init ps ss umin, []) t = true) :
    (HPP.execG (HPP.init ps ss umin, []) t).1.live_count
        = allocsSLC t 0 - deallocsSLC t 0 ∧
      deallocsSLC t 0 ≤ allocsSLC t 0 := by
  have h1 := HPP.execG_live_eq_out t (HPP.init ps ss umin, []) rfl hwf
  have h2 := HPP.execG_out_counts t (HPP.init ps ss umin, []) 0 hwf
  have h0 : ((HPP.init ps ss umin, ([] : List (Nat × Nat))).2.length + 0) = 0 := rfl
  rw [h0] at h2
  omega

/-- C7, witnessed on the run `allocate; allocate; deallocate (0,0)`:
`live() = 2 - 1`. -/
theorem claim7_witness :
    (HPP.execG (HPP.init 4096 24 0, [])
        [Op.alloc 5 0, Op.alloc 6 0, Op.dealloc (0, 0)]).1.live_count
        = allocsSLC [Op.alloc 5 0, Op.alloc 6 0, Op.dealloc (0, 0)] 0
            - deallocsSLC [Op.alloc 5 0, Op.alloc 6 0, Op.dealloc (0, 0)] 0 ∧
      deallocsSLC [Op.alloc 5 0, Op.alloc 6 0, Op.dealloc (0, 0)] 0
        ≤ allocsSLC [Op.alloc 5 0, Op.alloc 6 0, Op.dealloc (0, 0)] 0 :=
  claim7_conservation 4096 24 0 _ (by decide)

/-- The per-segment creation invariant: positive page count, page count a
multiple of the base and bounded by the current hint, and byte size exact
(`capacity * slot_size = pages * page_size`). -/
def segOK (ps ss base hint : Nat) (x : Nat × Nat) : Prop :=
  0 < x.1 ∧ base ∣ x.1 ∧ x.1 ≤ hint ∧ x.2 * ss = x.1 * ps

/-- Reachability invariant of the hpp pool: the configuration fields are those
set by the constructor, the hint is a base multiple, every segment satisfies
`segOK`, and the segment page counts are non-decreasing in creation order. -/
def GInv (ps ss umin : Nat) (p : HPP.Pool) : Prop :=
  p.ps = ps ∧ p.ss = ss ∧ p.base = compute_min_pages ps ss umin ∧
    p.base ∣ p.hint ∧
    (∀ x ∈ p.segs.map pc, segOK ps ss p.base p.hint x) ∧
    (p.segs.map pc).Pairwise (fun a b => a.1 ≤ b.1)

theorem ginv_init (ps ss umin : Nat) : GInv ps ss umin (HPP.init ps ss umin) :=
  ⟨rfl, rfl, rfl, Dvd.intro 0 rfl, fun x hx => absurd hx (List.not_mem_nil x),
    List.Pairwise.nil⟩

/-- Transport `GInv` along a state change that preserves the configuration, the
hint and every segment's creation data. -/
theorem ginv_of_map_eq (ps ss umin : Nat) (p q : HPP.Pool) (h : GInv ps ss umin p)
    (h1 : q.ps = p.ps) (h2 : q.ss = p.ss) (h3 : q.base = p.base) (h4 : q.hint = p.hint)
    (h5 : q.segs.map pc = p.segs.map pc) : GInv ps ss umin q := by
  obtain ⟨hp1, hp2, hp3, hdvd, hmem, hpw⟩ := h
  refine ⟨h1.trans hp1, h2.trans hp2, h3.trans hp3, ?_, ?_, ?_⟩
  · rw [h3, h4]; exact hdvd
  · rw [h3, h4, h5]; exact hmem
  · rw [h5]; exact hpw

theorem ginv_add_segment (ps ss umin : Nat) (hps : 0 < ps) (hss : 0 < ss)
    (p : HPP.Pool) (h : GInv ps ss umin p) (fl : Nat) :
    GInv ps ss umin (HPP.add_segment p fl) := by
  obtain ⟨hp1, hp2, hp3, hdvd, hmem, hpw⟩ := h
  have hbpos : 0 < p.base := by
    rw [hp3]; exact compute_min_pages_pos ps ss umin hps hss
  have hssdvd : ss ∣ p.base * ps := by
    rw [hp3]; exact ss_dvd_base_mul_ps ps ss umin
  have hnhdvd : p.base ∣ HPP.next_hint p fl := HPP.next_hint_dvd p fl hbpos
  have hcapnew : (HPP.next_hint p fl * p.ps / p.ss) * ss = HPP.next_hint p fl * ps := by
    obtain ⟨k, hk⟩ := hnhdvd
    rw [hp1, hp2, hk]
    have hdd : ss ∣ p.base * k * ps := by
      have : p.base * k * ps = (p.base * ps) * k := by ring
      rw [this]
      exact Dvd.dvd.mul_right hssdvd k
    rw [Nat.div_mul_cancel hdd]
  have hsegs : (HPP.add_segment p fl).segs.map pc
      = p.segs.map pc ++ [(HPP.next_hint p fl, HPP.next_hint p fl * p.ps / p.ss)] := by
    rw [HPP.add_segment_segs, List.map_append]
    rfl
  by_cases hnil : p.segs = []
  · have hnh : HPP.next_hint p fl = p.base := HPP.next_hint_empty p fl hnil
    refine ⟨hp1, hp2, hp3, ?_, ?_, ?_⟩
    · show p.base ∣ HPP.next_hint p fl
      rw [hnh]
    · intro x hx
      rw [hsegs, hnil] at hx
      simp only [List.map_nil, List.nil_append, List.mem_singleton] at hx
      subst hx
      refine ⟨?_, ?_, ?_, ?_⟩
      · show 0 < HPP.next_hint p fl
        rw [hnh]; exact hbpos
      · exact hnhdvd
      · exact Nat.le_refl _
      · exact hcapnew
    · rw [hsegs, hnil]
      simp
  · have hge : p.hint + p.base ≤ HPP.next_hint p fl := HPP.next_hint_ge p fl hnil
    have hnhpos : 0 < HPP.next_hint p fl := by omega
    refine ⟨hp1, hp2, hp3, hnhdvd, ?_, ?_⟩
    · intro x hx
      rw [hsegs] at hx
      rcases List.mem_append.mp hx with hold | hnew
      · obtain ⟨hxpos, hxdvd, hxle, hxcap⟩ := hmem x hold
        refine ⟨hxpos, hxdvd, ?_, hxcap⟩
        show x.1 ≤ HPP.next_hint p fl
        omega
      · rw [List.mem_singleton] at hnew
        subst hnew
        exact ⟨hnhpos, hnhdvd, Nat.le_refl _, hcapnew⟩
    · rw [hsegs]
      rw [List.pairwise_append]
      refine ⟨hpw, List.pairwise_singleton _ _, ?_⟩
      intro a ha b hb
      rw [List.mem_singleton] at hb
      subst hb
      have := (hmem a ha).2.2.1
      show a.1 ≤ HPP.next_hint p fl
      omega

theorem ginv_allocate (ps ss umin : Nat) (hps : 0 < ps) (hss : 0 < ss)
    (p : HPP.Pool) (h : GInv ps ss umin p) (v fl : Nat) :
    GInv ps ss umin (HPP.allocate p v fl).1 := by
  unfold HPP.allocate
  cases hfl : p.free_list with
  | cons a rest => exact h
  | nil =>
    cases hroom : HPP.backHasRoom p with
    | true =>
      obtain ⟨seg, hlast, _⟩ := (HPP.backHasRoom_iff p).mp hroom
      simp only [if_pos rfl]
      unfold HPP.claimBack
      rw [hlast]
      exact ginv_of_map_eq ps ss umin p _ h rfl rfl rfl rfl (setLastNext_map_pc p.segs)
    | false =>
      simp only [Bool.false_eq_true, if_false]
      have h2 := ginv_add_segment ps ss umin hps hss p h fl
      unfold HPP.claimBack
      rw [show (HPP.add_segment p fl).segs = p.segs ++
            [{ pages := HPP.next_hint p fl,
               capacity := HPP.next_hint p fl * p.ps / p.ss,
               next_uninit := 0 }] from rfl,
        List.getLast?_concat]
      refine ginv_of_map_eq ps ss umin (HPP.add_segment p fl) _ h2 rfl rfl rfl rfl ?_
      exact setLastNext_map_pc _

theorem ginv_stepG (ps ss umin : Nat) (hps : 0 < ps) (hss : 0 < ss)
    (s : HPP.Pool × List (Nat × Nat)) (h : GInv ps ss umin s.1) (op : Op) :
    GInv ps ss umin (HPP.stepG s op).1 := by
  cases op with
  | alloc v fl => exact ginv_allocate ps ss umin hps hss s.1 h v fl
  | dealloc a => exact h
  | clear =>
    obtain ⟨hp1, hp2, hp3, _, _, _⟩ := h
    exact ⟨hp1, hp2, hp3, dvd_refl _,
      fun x hx => absurd hx (List.not_mem_nil x), List.Pairwise.nil⟩

theorem ginv_execG (ps ss umin : Nat) (hps : 0 < ps) (hss : 0 < ss)
    (ops : List Op) : ∀ s : HPP.Pool × List (Nat × Nat), GInv ps ss umin s.1 →
    GInv ps ss umin (HPP.execG s ops).1 := by
  induction ops with
  | nil => intro s h; exact h
  | cons op t ih =>
    intro s h
    exact ih (HPP.stepG s op) (ginv_stepG ps ss umin hps hss s h op)

/-- C5: for every element type (any size `esz > 0`, any alignment, any pointer
size), every page size, and every growth behaviour (the float oracle of each
growth is universally quantified, hence every growth factor ≥ 1.0), every
segment owned by a pool reached by any operation sequence satisfies: its byte
size `pages × page_size` equals `slot_size × capacity` exactly (no tail waste),
and `capacity × slot_size` is an integer multiple of the host page size. -/
theorem claim5_no_internal_fragmentation (ps esz ptrsz al umin : Nat)
    (ops : List Op) (hps : 0 < ps) (hesz : 0 < esz) :
    ∀ seg ∈ (HPP.execG (HPP.init ps (slot_size esz ptrsz al) umin, []) ops).1.segs,
      seg.pages * ps = seg.capacity * slot_size esz ptrsz al ∧
        ps ∣ seg.capacity * slot_size esz ptrsz al := by
  intro seg hseg
  have hss : 0 < slot_size esz ptrsz al := slot_size_pos esz ptrsz al hesz
  have hinv := ginv_execG ps (slot_size esz ptrsz al) umin hps hss ops
    (HPP.init ps (slot_size esz ptrsz al) umin, [])
    (ginv_init ps (slot_size esz ptrsz al) umin)
  obtain ⟨_, _, _, _, hmem, _⟩ := hinv
  obtain ⟨_, _, _, hcap⟩ := hmem (pc seg) (List.mem_map_of_mem pc hseg)
  constructor
  · exact hcap.symm
  · exact ⟨seg.pages, hcap.trans (Nat.mul_comm _ _)⟩

/-- C5, witnessed at page size 4096, a 24-byte 8-aligned element (slot size
24), after one allocation (one 3-page segment of 512 slots). -/
theorem claim5_witness :
    ({ pages := 3, capacity := 512, next_uninit := 1 } : Seg).pages * 4096
        = ({ pages := 3, capacity := 512, next_uninit := 1 } : Seg).capacity
            * slot_size 24 8 8 ∧
      4096 ∣ ({ pages := 3, capacity := 512, next_uninit := 1 } : Seg).capacity
          * slot_size 24 8 8 :=
  claim5_no_internal_fragmentation 4096 24 8 8 0 [Op.alloc 0 0] (by decide) (by decide)
    { pages := 3, capacity := 512, next_uninit := 1 } (by decide)

/-- C6: in every pool state reached by any operation sequence (hence across
successive growths, with the float oracle of each growth universally
quantified), the sequence of segment page counts in creation order is
non-decreasing, and every segment's page count is a positive integer multiple
of the base page count. -/
theorem claim6_growth_monotonicity (ps ss umin : Nat) (ops : List Op)
    (hps : 0 < ps) (hss : 0 < ss) :
    ((HPP.execG (HPP.init ps ss umin, []) ops).1.segs.map SegPool.Seg.pages).Pairwise
        (fun a b => a ≤ b) ∧
      ∀ seg ∈ (HPP.execG (HPP.init ps ss umin, []) ops).1.segs,
        0 < seg.pages ∧ compute_min_pages ps ss umin ∣ seg.pages := by
  have hinv := ginv_execG ps ss umin hps hss ops (HPP.init ps ss umin, [])
    (ginv_init ps ss umin)
  obtain ⟨_, _, hp3, _, hmem, hpw⟩ := hinv
  constructor
  · rw [List.pairwise_map] at hpw
    rw [List.pairwise_map]
    exact hpw
  · intro seg hseg
    obtain ⟨hpos, hdvd, _, _⟩ := hmem (pc seg) (List.mem_map_of_mem pc hseg)
    refine ⟨hpos, ?_⟩
    rw [← hp3]
    exact hdvd

/-- C6, witnessed after two forced growths (a 4096-byte slot gives capacity 1
per base segment, so two allocations create two segments): page counts `[1, 2]`
are non-decreasing positive multiples of the base page count 1. -/
theorem claim6_witness :
    ((HPP.execG (HPP.init 4096 4096 0, []) [Op.alloc 0 0, Op.alloc 0 0]).1.segs.map
        SegPool.Seg.pages).Pairwise (fun a b => a ≤ b) ∧
      ∀ seg ∈ (HPP.execG (HPP.init 4096 4096 0, []) [Op.alloc 0 0, Op.alloc 0 0]).1.segs,
        0 < seg.pages ∧ compute_min_pages 4096 4096 0 ∣ seg.pages :=
  claim6_growth_monotonicity 4096 4096 0 [Op.alloc 0 0, Op.alloc 0 0]
    (by decide) (by decide)

end SegPool
